import Mathlib

/-!
Verification of the `essentials-of-compilation-rs` compiler pipeline.

This file gives a shallow embedding in Lean of the backend passes of the
repository (uniquify, remove_complex_operands, explicate_control,
select_instructions, assign_homes, patch_instructions) together with the
frontend surface AST, and proves or refutes the specification claims about
them.  Rust `u64`/`i64` values are modelled as `Nat`/`Int` with explicit
two's-complement conversion where the code casts; Rust panics
(`unreachable!()`, `Option::unwrap`) are modelled by `Option`-valued
functions returning `none`.
-/

namespace EoC

/-- Surface unary operator kinds (frontend/src/ast.rs `UnaryOpKind`). -/
inductive UnaryOpKind
  | minus
deriving DecidableEq

/-- Surface binary operator kinds (frontend/src/ast.rs `BinaryOpKind`). -/
inductive BinaryOpKind
  | add
  | sub
deriving DecidableEq

/-- Surface expression (frontend/src/ast.rs `Expr`).  Integer literals are
Rust `u64` values, modelled as `Nat` (callers keep them below `2^64`). -/
inductive LExpr
  | integer (val : Nat)
  | read
  | ident (name : String)
  | unaryOp (kind : UnaryOpKind) (operand : LExpr)
  | binaryOp (kind : BinaryOpKind) (left : LExpr) (right : LExpr)
  | letE (variableName : String) (initExpr : LExpr) (body : LExpr)
deriving DecidableEq

/-- Fresh-name generator (backend/src/lib.rs and uniquify.rs
`NameGenerator`): a fixed text part plus a monotonically increasing
counter. -/
structure NameGenerator where
  pref : String
  index : Nat
deriving DecidableEq

/-- `NameGenerator::generate`: returns `prefix ++ index` and increments the
counter. -/
def NameGenerator.generate (g : NameGenerator) : String × NameGenerator :=
  (g.pref ++ toString g.index, { g with index := g.index + 1 })

/-- The only pass error (backend/src/uniquify.rs `PassError`). -/
inductive PassError
  | unknownIdentifier (name : String)
deriving DecidableEq

/-- State of the uniquify pass (backend/src/uniquify.rs `UniquifyImpl`):
the name generator and a stack of scope maps, innermost scope first.  The
Rust `HashMap` of one scope is modelled as an association list with
replace-on-insert semantics. -/
structure UniquifyState where
  nameGen : NameGenerator
  symbolTable : List (List (String × String))
deriving DecidableEq

/-- `HashMap::insert` on one scope: replace the binding if the key is
present, otherwise append it. -/
def scopeInsert : List (String × String) → String → String → List (String × String)
  | [], k, v => [(k, v)]
  | (k1, v1) :: rest, k, v =>
      if k1 = k then (k, v) :: rest else (k1, v1) :: scopeInsert rest k v

/-- `HashMap::get` on one scope. -/
def scopeGet : List (String × String) → String → Option String
  | [], _ => none
  | (k1, v1) :: rest, k => if k1 = k then some v1 else scopeGet rest k

/-- `UniquifyImpl::lookup`: walk the scope stack innermost-to-outermost and
return the first match. -/
def lookupName : List (List (String × String)) → String → Option String
  | [], _ => none
  | scope :: rest, n =>
      match scopeGet scope n with
      | some v => some v
      | none => lookupName rest n

/-- `gen_and_declare_unique_name`s insertion into the innermost scope
(`symbol_table.last_mut().unwrap().insert(...)`).  The empty-stack case is
unreachable in the pass (a scope is always pushed first). -/
def insertTop : List (List (String × String)) → String → String → List (List (String × String))
  | [], _, _ => []
  | scope :: rest, k, v => scopeInsert scope k v :: rest

/-- The state in which a `Let`'s body is renamed
(backend/src/uniquify.rs): after `enter_scope` (push an empty innermost
scope) and `gen_and_declare_unique_name` (generate a fresh name and bind
the source name to it in the innermost scope). -/
def bodyState (x : String) (st1 : UniquifyState) : UniquifyState :=
  { nameGen := st1.nameGen.generate.2,
    symbolTable := insertTop ([] :: st1.symbolTable) x st1.nameGen.generate.1 }

/-- `UniquifyImpl::run_on_expr` (backend/src/uniquify.rs), with the `self`
state threaded explicitly. -/
def run_on_expr (st : UniquifyState) : LExpr → Except PassError (LExpr × UniquifyState)
  | .integer v => .ok (.integer v, st)
  | .read => .ok (.read, st)
  | .ident n =>
      match lookupName st.symbolTable n with
      | some result => .ok (.ident result, st)
      | none => .error (.unknownIdentifier n)
  | .unaryOp k o =>
      match run_on_expr st o with
      | .error e => .error e
      | .ok (o1, st1) => .ok (.unaryOp k o1, st1)
  | .binaryOp k l r =>
      match run_on_expr st l with
      | .error e => .error e
      | .ok (l1, st1) =>
          match run_on_expr st1 r with
          | .error e => .error e
          | .ok (r1, st2) => .ok (.binaryOp k l1 r1, st2)
  | .letE x initExpr body =>
      match run_on_expr st initExpr with
      | .error e => .error e
      | .ok (init1, st1) =>
          match run_on_expr (bodyState x st1) body with
          | .error e => .error e
          | .ok (body1, st4) =>
              .ok (.letE st1.nameGen.generate.1 init1 body1,
                   { st4 with symbolTable := st4.symbolTable.tail })

/-- `uniquify_expr` (backend/src/uniquify.rs): run the pass from a fresh
state (`NameGenerator::new("x")`, empty scope stack). -/
def uniquify_expr (e : LExpr) : Except PassError LExpr :=
  match run_on_expr { nameGen := { pref := "x", index := 0 }, symbolTable := [] } e with
  | .error err => .error err
  | .ok (e1, _) => .ok e1

mutual

/-- `RCOImpl::rco_atom` (backend/src/remove_complex_operands.rs): returns
an atomic form together with the ordered list of hoisted
`(name, initializer)` pairs, threading the `tmp` name counter. -/
def rco_atom (g : NameGenerator) : LExpr → LExpr × List (String × LExpr) × NameGenerator
  | .integer v => (.integer v, [], g)
  | .read => (.read, [], g)
  | .ident n => (.ident n, [], g)
  | .unaryOp k o =>
      let r := rco_atom g o
      let fr := r.2.2.generate
      (.ident fr.1, r.2.1 ++ [(fr.1, .unaryOp k r.1)], fr.2)
  | .binaryOp k l rOp =>
      let rl := rco_atom g l
      let rr := rco_atom rl.2.2 rOp
      let fr := rr.2.2.generate
      (.ident fr.1, rl.2.1 ++ rr.2.1 ++ [(fr.1, .binaryOp k rl.1 rr.1)], fr.2)
  | .letE x initExpr body =>
      let ri := rco_expr g initExpr
      let rb := rco_expr ri.2 body
      (.letE x ri.1 rb.1, [], rb.2)

/-- `RCOImpl::rco_expr` (backend/src/remove_complex_operands.rs): flatten a
whole expression, folding each child's hoisted bindings into nested `Let`
wrappers (right operand's bindings innermost, then the left operand's). -/
def rco_expr (g : NameGenerator) : LExpr → LExpr × NameGenerator
  | .integer v => (.integer v, g)
  | .read => (.read, g)
  | .ident n => (.ident n, g)
  | .unaryOp k o =>
      let r := rco_atom g o
      (r.2.1.reverse.foldl
        (fun body p => .letE p.1 p.2 body) (.unaryOp k r.1), r.2.2)
  | .binaryOp k l rOp =>
      let rl := rco_atom g l
      let rr := rco_atom rl.2.2 rOp
      ((rr.2.1.reverse ++ rl.2.1.reverse).foldl
        (fun body p => .letE p.1 p.2 body) (.binaryOp k rl.1 rr.1), rr.2.2)
  | .letE x initExpr body =>
      let ri := rco_expr g initExpr
      let rb := rco_expr ri.2 body
      (.letE x ri.1 rb.1, rb.2)

end

/-- `remove_complex_operands` (backend/src/remove_complex_operands.rs): run
`rco_expr` from a fresh `NameGenerator::new("tmp")`. -/
def remove_complex_operands (e : LExpr) : LExpr :=
  (rco_expr { pref := "tmp", index := 0 } e).1

/-- Atomicity of a single operand as the specification words it: an
`Integer`, a `Read`, or an `Identifier`. -/
def isAtomicOperand : LExpr → Bool
  | .integer _ => true
  | .read => true
  | .ident _ => true
  | _ => false

/-- The Flattener postcondition claimed by the specification: every
operand of every unary or binary operator is atomic, throughout the
expression. -/
def operandsAtomic : LExpr → Bool
  | .integer _ => true
  | .read => true
  | .ident _ => true
  | .unaryOp _ o => isAtomicOperand o && operandsAtomic o
  | .binaryOp _ l r =>
      isAtomicOperand l && operandsAtomic l && isAtomicOperand r && operandsAtomic r
  | .letE _ i b => operandsAtomic i && operandsAtomic b

/-- A renamed surface expression with a `Let` in operand position:
`(- (let ([x0 1]) x0))`. -/
def letOperandInput : LExpr :=
  .unaryOp .minus (.letE "x0" (.integer 1) (.ident "x0"))

/-- Claim C1: refuted on the code.  `rco_atom`s `Let` arm returns the
`Let` itself with no hoisted bindings, so a `Let` appearing as an operator
operand in the input survives `remove_complex_operands` unchanged: on
`(- (let ([x0 1]) x0))` the output still has the `Let` as the operand of
the unary minus, violating the claimed postcondition. -/
theorem rco_let_operand_not_removed :
    remove_complex_operands letOperandInput
      = .unaryOp .minus (.letE "x0" (.integer 1) (.ident "x0"))
    ∧ operandsAtomic (remove_complex_operands letOperandInput) = false := by
  constructor
  · rfl
  · rfl

/-- Atom of the three-address IR (backend/src/ir/cvar.rs `Atom`).
Integers here are Rust `i64` values, modelled as `Int`. -/
inductive Atom
  | integer (val : Int)
  | var (name : String)
deriving DecidableEq

/-- Unary operator kinds of the three-address IR (ir/cvar.rs). -/
inductive CUnaryOpKind
  | minus
deriving DecidableEq

/-- Binary operator kinds of the three-address IR (ir/cvar.rs). -/
inductive CBinaryOpKind
  | add
  | sub
deriving DecidableEq

/-- Non-recursive expression of the three-address IR (ir/cvar.rs `Expr`). -/
inductive CExpr
  | atom (a : Atom)
  | read
  | unaryOp (kind : CUnaryOpKind) (operand : Atom)
  | binaryOp (kind : CBinaryOpKind) (left : Atom) (right : Atom)
deriving DecidableEq

/-- Statement of the three-address IR (ir/cvar.rs `Stmt`). -/
inductive Stmt
  | assign (lhs : String) (rhs : CExpr)
  | ret (e : CExpr)
deriving DecidableEq

/-- Three-address program (ir/cvar.rs `Program`): the declared locals and
the statement list. -/
structure CProgram where
  locals : List String
  body : List Stmt
deriving DecidableEq

/-- `From<frontend::UnaryOpKind>` (ir/cvar.rs). -/
def convUnary : UnaryOpKind → CUnaryOpKind
  | .minus => .minus

/-- `From<frontend::BinaryOpKind>` (ir/cvar.rs). -/
def convBinary : BinaryOpKind → CBinaryOpKind
  | .add => .add
  | .sub => .sub

/-- Rust `val as i64` on a `u64` value: reduction modulo `2^64` into the
two's-complement range `[-2^63, 2^63)`. -/
def u64AsI64 (v : Nat) : Int :=
  if v % 2 ^ 64 < 2 ^ 63 then (v % 2 ^ 64 : Int) else (v % 2 ^ 64 : Int) - 2 ^ 64

/-- `ExplicateImpl::gen_atom` (backend/src/explicate_control.rs): map an
`Integer` or `Identifier` operand to an atom; every other shape hits the
`unreachable!()` panic, modelled as `none`. -/
def gen_atom : LExpr → Option Atom
  | .integer v => some (.integer (u64AsI64 v))
  | .ident n => some (.var n)
  | _ => none

/-- `ExplicateImpl::explicate_assign` (backend/src/explicate_control.rs),
with the result program threaded explicitly; `none` models the pass
panicking via `gen_atom`. -/
def explicate_assign (p : CProgram) : LExpr → Option (CProgram × CExpr)
  | .integer v => some (p, .atom (.integer (u64AsI64 v)))
  | .read => some (p, .read)
  | .ident n => some (p, .atom (.var n))
  | .unaryOp k o =>
      match gen_atom o with
      | some a => some (p, .unaryOp (convUnary k) a)
      | none => none
  | .binaryOp k l r =>
      match gen_atom l, gen_atom r with
      | some la, some ra => some (p, .binaryOp (convBinary k) la ra)
      | _, _ => none
  | .letE x initExpr body =>
      match explicate_assign p initExpr with
      | none => none
      | some (p1, rhs) =>
          explicate_assign
            { locals := p1.locals ++ [x], body := p1.body ++ [.assign x rhs] } body

/-- `ExplicateImpl::explicate_tail` (backend/src/explicate_control.rs). -/
def explicate_tail (p : CProgram) : LExpr → Option CProgram
  | .letE x initExpr body =>
      match explicate_assign p initExpr with
      | none => none
      | some (p1, rhs) =>
          explicate_tail
            { locals := p1.locals ++ [x], body := p1.body ++ [.assign x rhs] } body
  | other =>
      match explicate_assign p other with
      | none => none
      | some (p1, operand) =>
          some { p1 with body := p1.body ++ [.ret operand] }

/-- `explicate_control` (backend/src/explicate_control.rs): run
`explicate_tail` on a fresh empty program. -/
def explicate_control (e : LExpr) : Option CProgram :=
  explicate_tail { locals := [], body := [] } e

/-- A renamed surface expression with `read` in operand position:
`(- read)`.  It is in the form the specification calls flattened (all
operator operands are `Integer`, `Read`, or `Identifier`). -/
def readOperandInput : LExpr := .unaryOp .minus .read

/-- Claim C2: refuted on the code.  `(- read)` is accepted unchanged by the
Renamer and satisfies the Flattener postcondition as the specification
states it (`Read` is listed as a legal operand), and
`remove_complex_operands` leaves it unchanged — yet `gen_atom` accepts only
`Integer` and `Identifier`, so `explicate_control` reaches the
`unreachable!()` panic branch (modelled as `none`).  The `Let`-in-operand
slip of `rco_atom` (see `rco_let_operand_not_removed`) reaches the same
panic. -/
theorem explicate_panic_reachable :
    uniquify_expr readOperandInput = .ok readOperandInput
    ∧ remove_complex_operands readOperandInput = readOperandInput
    ∧ operandsAtomic (remove_complex_operands readOperandInput) = true
    ∧ explicate_control (remove_complex_operands readOperandInput) = none := by
  refine ⟨rfl, rfl, rfl, rfl⟩

/-- Claim C10: confirmed.  Surface literals are unsigned 64-bit values and
`explicate_control` converts them with a raw `as i64` cast, i.e. reduction
modulo `2^64` into two's complement; for a literal `v ≥ 2^63` the resulting
atom is the negative value `v - 2^64`, both in `gen_atom` (operand
position) and in `explicate_assign` (expression position). -/
theorem integer_literal_cast (v : Nat) (h1 : v < 2 ^ 64) (h2 : 2 ^ 63 ≤ v) :
    gen_atom (.integer v) = some (.integer ((v : Int) - 2 ^ 64))
    ∧ (∀ p, explicate_assign p (.integer v) = some (p, .atom (.integer ((v : Int) - 2 ^ 64))))
    ∧ (v : Int) - 2 ^ 64 < 0 := by
  have hmod : v % 2 ^ 64 = v := Nat.mod_eq_of_lt h1
  have hcast : u64AsI64 v = (v : Int) - 2 ^ 64 := by
    rw [u64AsI64, hmod, if_neg (Nat.not_lt.mpr h2)]
    omega
  refine ⟨?_, fun p => ?_, ?_⟩
  · rw [gen_atom, hcast]
  · rw [explicate_assign, hcast]
  · have : (v : Int) < 2 ^ 64 := by exact_mod_cast h1
    omega

/-- Witness for `integer_literal_cast` at the literal `2^63`. -/
theorem integer_literal_cast_witness :
    gen_atom (.integer (2 ^ 63)) = some (.integer (((2 ^ 63 : Nat) : Int) - 2 ^ 64))
    ∧ ((2 ^ 63 : Nat) : Int) - 2 ^ 64 < 0 :=
  ⟨(integer_literal_cast (2 ^ 63) (by norm_num) (by norm_num)).1,
   (integer_literal_cast (2 ^ 63) (by norm_num) (by norm_num)).2.2⟩

/-- The sixteen general-purpose registers (backend/src/ir/x86.rs `Reg`). -/
inductive Reg
  | rsp | rbp | rax | rbx | rcx | rdx | rsi | rdi
  | r8 | r9 | r10 | r11 | r12 | r13 | r14 | r15
deriving DecidableEq

/-- Pseudo-assembly operand (ir/x86.rs `VarArg`): immediate, register,
memory dereference, or — before home assignment — a symbolic variable. -/
inductive VarArg
  | imm (value : Int)
  | reg (r : Reg)
  | deref (base : Reg) (offset : Int)
  | var (name : String)
deriving DecidableEq

/-- Pseudo-assembly instruction (ir/x86.rs `Instruction`), instantiated at
`VarArg` operands (the only instantiation the verified passes use).  For
`addq`/`subq`, `lhs` is both an input and the destination; for `movq`,
`src` is the `from` operand and `dst` the `to` operand. -/
inductive VarInstr
  | addq (lhs rhs : VarArg)
  | subq (lhs rhs : VarArg)
  | negq (operand : VarArg)
  | movq (src dst : VarArg)
  | pushq (operand : VarArg)
  | popq (operand : VarArg)
  | callq (callee : String)
  | retq
  | jmp (target : String)
deriving DecidableEq

/-- Pseudo-assembly block (ir/x86.rs `Block`). -/
structure VarBlock where
  label : String
  instructions : List VarInstr
deriving DecidableEq

/-- Pseudo-assembly program (ir/x86.rs `Program`).  Modelled from the
spec: the `local_variables` field (the Three-Address Program's `locals`
carried into the symbolic-assembly stage) — it is read and cleared by
assign_homes.rs and rebuilt by patch_instructions.rs, but its declaration
is absent from the snapshot of ir/x86.rs. -/
structure VarProgram where
  local_variables : List String
  body : List VarBlock
deriving DecidableEq

/-- `SelectInstrImpl::generate_result_target`
(backend/src/select_instructions.rs): the operand-load move for
unary/binary operations, elided (`none`) exactly when the destination is a
symbolic variable equal to the expected source. -/
def generate_result_target (actualResult expectedResult : VarArg) : Option VarInstr :=
  match actualResult with
  | .var _ =>
      if actualResult = expectedResult then none
      else some (.movq expectedResult actualResult)
  | _ => some (.movq expectedResult actualResult)

/-- `SelectInstrImpl::handle_atom` (backend/src/select_instructions.rs). -/
def handle_atom : Atom → VarArg
  | .integer v => .imm v
  | .var n => .var n

/-- `SelectInstrImpl::handle_expr` (backend/src/select_instructions.rs):
emit into the block (modelled as the instruction list so far) the
instructions computing `e` into `result`. -/
def handle_expr (e : CExpr) (result : VarArg) (block : List VarInstr) : List VarInstr :=
  match e with
  | .atom a => block ++ [.movq (handle_atom a) result]
  | .read => block ++ [.callq "read_int", .movq (.reg .rax) result]
  | .unaryOp k o =>
      let block1 :=
        match generate_result_target result (handle_atom o) with
        | some instr => block ++ [instr]
        | none => block
      match k with
      | .minus => block1 ++ [.negq result]
  | .binaryOp k l r =>
      let block1 :=
        match generate_result_target result (handle_atom l) with
        | some instr => block ++ [instr]
        | none => block
      match k with
      | .add => block1 ++ [.addq result (handle_atom r)]
      | .sub => block1 ++ [.subq result (handle_atom r)]

/-- `SelectInstrImpl::handle_stmt` (backend/src/select_instructions.rs). -/
def handle_stmt (s : Stmt) (block : List VarInstr) : List VarInstr :=
  match s with
  | .assign lhs rhs => handle_expr rhs (.var lhs) block
  | .ret operand => handle_expr operand (.reg .rax) block ++ [.jmp "conclusion"]

/-- `SelectInstrImpl::handle_program` (backend/src/select_instructions.rs):
emit all statements into a fresh `main` block and add the empty
`conclusion` block.  Modelled from the spec: the transfer of the
Three-Address Program's `locals` into the output's `local_variables`
("carried through unchanged by the Instruction Selector") — the snapshot's
`handle_program` predates the `local_variables` field. -/
def handle_program (p : CProgram) : VarProgram :=
  { local_variables := p.locals,
    body := [{ label := "main", instructions := p.body.foldl (fun b s => handle_stmt s b) [] },
             { label := "conclusion", instructions := [] }] }

/-- `select_instructions` (backend/src/select_instructions.rs). -/
def select_instructions (p : CProgram) : VarProgram :=
  handle_program p

/-- Claim C6: confirmed (against the spec-modelled locals transfer).  The
Instruction Selector carries the Three-Address Program's `locals` list
through unchanged — same names, same order — so the Home Assigner's
assignment order is exactly the Three-Address Program's `locals` order. -/
theorem select_instructions_locals_carried (p : CProgram) :
    (select_instructions p).local_variables = p.locals := rfl

/-- `HashMap::insert` on the variable-location map of assign_homes
(backend/src/assign_homes.rs `variable_locations`): replace-on-insert. -/
def locInsert : List (String × Int) → String → Int → List (String × Int)
  | [], k, v => [(k, v)]
  | (k1, v1) :: rest, k, v =>
      if k1 = k then (k, v) :: rest else (k1, v1) :: locInsert rest k v

/-- `HashMap::get` on the variable-location map. -/
def locGet : List (String × Int) → String → Option Int
  | [], _ => none
  | (k1, v1) :: rest, k => if k1 = k then some v1 else locGet rest k

/-- The loop of `AssignHomesImpl::assign_homes_for_variables`
(backend/src/assign_homes.rs): insert each name at the current offset and
step the offset down by 8. -/
def assign_homes_go : List (String × Int) → Int → List String → List (String × Int)
  | m, _, [] => m
  | m, offset, n :: rest => assign_homes_go (locInsert m n offset) (offset - 8) rest

/-- `AssignHomesImpl::assign_homes_for_variables`: offsets start at `-8`. -/
def assign_homes_for_variables (vars : List String) : List (String × Int) :=
  assign_homes_go [] (-8) vars

/-- `AssignHomesImpl::modify_arg` (backend/src/assign_homes.rs): replace a
symbolic variable by `Deref(RBP, offset)`; the `unwrap` panic on a missing
entry is modelled as `none`. -/
def modify_arg (m : List (String × Int)) : VarArg → Option VarArg
  | .var n =>
      match locGet m n with
      | some offset => some (.deref .rbp offset)
      | none => none
  | other => some other

/-- The per-instruction body of `AssignHomesImpl::modify_block`
(backend/src/assign_homes.rs): `Addq`/`Subq`/`Movq` rewrite both operands,
`Negq`/`Pushq`/`Popq` rewrite their single operand, and
`Callq`/`Retq`/`Jmp` are untouched. -/
def modify_instr (m : List (String × Int)) : VarInstr → Option VarInstr
  | .addq lhs rhs =>
      match modify_arg m lhs, modify_arg m rhs with
      | some l, some r => some (.addq l r)
      | _, _ => none
  | .subq lhs rhs =>
      match modify_arg m lhs, modify_arg m rhs with
      | some l, some r => some (.subq l r)
      | _, _ => none
  | .movq src dst =>
      match modify_arg m src, modify_arg m dst with
      | some s, some d => some (.movq s d)
      | _, _ => none
  | .negq operand =>
      match modify_arg m operand with
      | some o => some (.negq o)
      | none => none
  | .pushq operand =>
      match modify_arg m operand with
      | some o => some (.pushq o)
      | none => none
  | .popq operand =>
      match modify_arg m operand with
      | some o => some (.popq o)
      | none => none
  | .callq callee => some (.callq callee)
  | .retq => some .retq
  | .jmp target => some (.jmp target)

/-- Option-valued map over a list (effect order as in the Rust iteration). -/
def mapOpt {α β : Type} (f : α → Option β) : List α → Option (List β)
  | [] => some []
  | x :: rest =>
      match f x, mapOpt f rest with
      | some y, some ys => some (y :: ys)
      | _, _ => none

/-- `AssignHomesImpl::modify_block` (backend/src/assign_homes.rs). -/
def modify_block (m : List (String × Int)) (b : VarBlock) : Option VarBlock :=
  match mapOpt (modify_instr m) b.instructions with
  | some instrs => some { label := b.label, instructions := instrs }
  | none => none

/-- `assign_homes` (backend/src/assign_homes.rs): build the location map
from `local_variables`, clear the list, and rewrite every block. -/
def assign_homes (p : VarProgram) : Option VarProgram :=
  match mapOpt (modify_block (assign_homes_for_variables p.local_variables)) p.body with
  | some blocks => some { local_variables := [], body := blocks }
  | none => none

/-- The per-instruction rewrite of `transform_block`
(backend/src/patch_instructions.rs), one list entry per `add_instr` push;
the arms appear in the source's match order (first match wins).  The last
big-immediate arm faithfully reproduces the source's `Addq` (not `Movq`)
as its second instruction. -/
def patch_instr : VarInstr → List VarInstr
  | .addq (.deref regLhs offsetLhs) (.deref regRhs offsetRhs) =>
      [.movq (.deref regRhs offsetRhs) (.reg .rax),
       .addq (.deref regLhs offsetLhs) (.reg .rax)]
  | .subq (.deref regLhs offsetLhs) (.deref regRhs offsetRhs) =>
      [.movq (.deref regRhs offsetRhs) (.reg .rax),
       .subq (.deref regLhs offsetLhs) (.reg .rax)]
  | .movq (.deref regRhs offsetRhs) (.deref regLhs offsetLhs) =>
      [.movq (.deref regRhs offsetRhs) (.reg .rax),
       .movq (.reg .rax) (.deref regLhs offsetLhs)]
  | .addq (.deref regLhs offsetLhs) (.imm value) =>
      if value > 0x10000 then
        [.movq (.imm value) (.reg .rax),
         .addq (.deref regLhs offsetLhs) (.reg .rax)]
      else [.addq (.deref regLhs offsetLhs) (.imm value)]
  | .subq (.deref regLhs offsetLhs) (.imm value) =>
      if value > 0x10000 then
        [.movq (.imm value) (.reg .rax),
         .subq (.deref regLhs offsetLhs) (.reg .rax)]
      else [.subq (.deref regLhs offsetLhs) (.imm value)]
  | .movq (.imm value) (.deref regLhs offsetLhs) =>
      if value > 0x10000 then
        [.movq (.imm value) (.reg .rax),
         .addq (.deref regLhs offsetLhs) (.reg .rax)]
      else [.movq (.imm value) (.deref regLhs offsetLhs)]
  | other => [other]

/-- `transform_block` (backend/src/patch_instructions.rs): rebuild the
block by pushing each instruction's rewrite in order. -/
def transform_block (b : VarBlock) : VarBlock :=
  { label := b.label,
    instructions := b.instructions.foldl (fun acc i => acc ++ patch_instr i) [] }

/-- `patch_instructions` (backend/src/patch_instructions.rs). -/
def patch_instructions (p : VarProgram) : VarProgram :=
  { local_variables := p.local_variables,
    body := p.body.map transform_block }

/-- The whole backend pipeline on a surface expression, as wired by the
claims: uniquify, remove_complex_operands, explicate_control,
select_instructions, assign_homes, patch_instructions.  `none` models any
pass panicking, and a Renamer error also yields `none`. -/
def compile (e : LExpr) : Option VarProgram :=
  match uniquify_expr e with
  | .error _ => none
  | .ok e1 =>
      match explicate_control (remove_complex_operands e1) with
      | none => none
      | some p =>
          match assign_homes (select_instructions p) with
          | none => none
          | some q => some (patch_instructions q)

/-- The end-to-end example program `let ([a 42]) (let ([b a]) b)`. -/
def endToEndInput : LExpr :=
  .letE "a" (.integer 42) (.letE "b" (.ident "a") (.ident "b"))

/-- Claim C3 counterexample: the claim's four-instruction `main` (with the
memory-to-memory move `movq -8(%rbp), -16(%rbp)` intact) is not what the
pipeline produces, because the claimed pipeline ends with
`patch_instructions`, which splits that move through `%rax`. -/
theorem end_to_end_claimed_program_refuted :
    compile endToEndInput
      ≠ some { local_variables := [],
               body := [{ label := "main",
                          instructions :=
                            [.movq (.imm 42) (.deref .rbp (-8)),
                             .movq (.deref .rbp (-8)) (.deref .rbp (-16)),
                             .movq (.deref .rbp (-16)) (.reg .rax),
                             .jmp "conclusion"] },
                        { label := "conclusion", instructions := [] }] } := by
  decide

/-- Claim C3 as amended: the full pipeline on `let ([a 42]) (let ([b a]) b)`
yields exactly two blocks — `main` ending in `jmp conclusion` and an empty
`conclusion` — with `a`'s slot at offset `-8` and `b`'s at `-16`
(uniquify renames them `x0`, `x1`), and `main` being the move of immediate
42 into `-8(%rbp)`, the memory-to-memory move of `-8(%rbp)` into
`-16(%rbp)` split by `patch_instructions` into a move through `%rax`, the
move of `-16(%rbp)` into `%rax`, and the jump. -/
theorem end_to_end_pipeline :
    compile endToEndInput
      = some { local_variables := [],
               body := [{ label := "main",
                          instructions :=
                            [.movq (.imm 42) (.deref .rbp (-8)),
                             .movq (.deref .rbp (-8)) (.reg .rax),
                             .movq (.reg .rax) (.deref .rbp (-16)),
                             .movq (.deref .rbp (-16)) (.reg .rax),
                             .jmp "conclusion"] },
                        { label := "conclusion", instructions := [] }] } := by
  decide

/-- Claim C5 counterexample: a bare `Atom` assignment `x = x` is not
elided — `handle_expr`'s `Atom` arm always emits the move, and
`generate_result_target` is consulted only for the operand-load of unary
and binary operations. -/
theorem atom_self_move_not_elided :
    handle_stmt (.assign "x" (.atom (.var "x"))) [] = [.movq (.var "x") (.var "x")]
    ∧ [VarInstr.movq (.var "x") (.var "x")] ≠ ([] : List VarInstr) := by
  exact ⟨rfl, by decide⟩

/-- Claim C5 as amended: the operand-load move of a unary or binary
operation is elided exactly when the destination is a symbolic variable
structurally equal to the source (never when they differ), while a bare
`Atom` assignment always emits its single move — even a self-move
`x = x`. -/
theorem move_elision_characterization :
    (∀ a e : VarArg, generate_result_target a e = none
        ↔ ∃ n, a = VarArg.var n ∧ e = VarArg.var n)
    ∧ (∀ a e : VarArg, a ≠ e → generate_result_target a e = some (.movq e a))
    ∧ (∀ (x : Atom) (result : VarArg) (block : List VarInstr),
        handle_expr (.atom x) result block = block ++ [.movq (handle_atom x) result]) := by
  refine ⟨fun a e => ?_, fun a e hne => ?_, fun x result block => rfl⟩
  · constructor
    · intro h
      cases a with
      | var n =>
          by_cases he : VarArg.var n = e
          · exact ⟨n, rfl, he.symm⟩
          · simp [generate_result_target, if_neg he] at h
      | imm v => simp [generate_result_target] at h
      | reg r => simp [generate_result_target] at h
      | deref r o => simp [generate_result_target] at h
    · rintro ⟨n, rfl, rfl⟩
      simp [generate_result_target]
  · cases a with
    | var n => simp [generate_result_target, if_neg hne]
    | imm v => rfl
    | reg r => rfl
    | deref r o => rfl

/-- Witness for `move_elision_characterization`: the self-move `y := y` of
a symbolic variable is elided, and the differing move `y := z` is not. -/
theorem move_elision_characterization_witness :
    generate_result_target (VarArg.var "y") (VarArg.var "y") = none
    ∧ generate_result_target (VarArg.var "y") (VarArg.var "z")
        = some (.movq (.var "z") (.var "y")) :=
  ⟨(move_elision_characterization.1 (VarArg.var "y") (VarArg.var "y")).mpr
      ⟨"y", rfl, rfl⟩,
   move_elision_characterization.2.1 (VarArg.var "y") (VarArg.var "z") (by decide)⟩

/-- A pseudo-assembly program whose variable list repeats a name. -/
def dupVarsProgram : VarProgram :=
  { local_variables := ["a", "a"],
    body := [{ label := "main", instructions := [.negq (.var "a")] }] }

/-- Claim C7 counterexample: when the variable list contains a duplicate
name, the `HashMap` insert of the second occurrence overwrites the first,
so the first-declared variable `a` is homed at `-16`, not `-8`, and offset
`-8` is never used (the assignment is not dense from `-8`). -/
theorem assign_homes_duplicate_names :
    assign_homes dupVarsProgram
      = some { local_variables := [],
               body := [{ label := "main",
                          instructions := [.negq (.deref .rbp (-16))] }] }
    ∧ assign_homes dupVarsProgram
      ≠ some { local_variables := [],
               body := [{ label := "main",
                          instructions := [.negq (.deref .rbp (-8))] }] } := by
  exact ⟨rfl, by decide⟩

/-- An operand that is a memory reference (`Deref`). -/
def isMemArg : VarArg → Bool
  | .deref _ _ => true
  | _ => false

/-- An `Addq`, `Subq`, or `Movq` whose two operands are both memory
references — the first addressing-mode violation the Legalizer removes. -/
def twoMemInstr : VarInstr → Bool
  | .addq l r => isMemArg l && isMemArg r
  | .subq l r => isMemArg l && isMemArg r
  | .movq s d => isMemArg s && isMemArg d
  | _ => false

/-- The over-threshold-immediate shapes as claim C4 words them: an
immediate whose magnitude exceeds `0x10000` directly as an operand of an
add or sub, or as the source of a move into memory. -/
def overMagnitudeImm : VarInstr → Bool
  | .addq _ (.imm v) => decide (0x10000 < v.natAbs)
  | .subq _ (.imm v) => decide (0x10000 < v.natAbs)
  | .movq (.imm v) d => isMemArg d && decide (0x10000 < v.natAbs)
  | _ => false

/-- The over-threshold-immediate shapes the code actually rewrites: a
signed immediate value greater than `0x10000` as the right operand of an
add or sub whose destination is a memory reference, or as the source of a
move into memory. -/
def overImmInstr : VarInstr → Bool
  | .addq l (.imm v) => isMemArg l && decide (0x10000 < v)
  | .subq l (.imm v) => isMemArg l && decide (0x10000 < v)
  | .movq (.imm v) d => isMemArg d && decide (0x10000 < v)
  | _ => false

/-- A program whose instructions violate claim C4's magnitude rule but not
the code's signed-value rule: a large negative immediate fed to a
memory-destination add, and a large positive immediate fed to a
register-destination add. -/
def overMagnitudeProgram : VarProgram :=
  { local_variables := [],
    body := [{ label := "main",
               instructions := [.addq (.deref .rbp (-8)) (.imm (-70000)),
                                .addq (.reg .rbx) (.imm 131072)] }] }

/-- Claim C4 counterexample: `patch_instructions` compares the signed
immediate value against `0x10000` (`value > 0x10000`) and only rewrites
add/sub immediates when the destination is a memory reference, so both an
immediate of magnitude 70000 (value `-70000`) reaching a
memory-destination add and an immediate 131072 reaching a
register-destination add pass through unmodified, contradicting the
claimed "no immediate whose magnitude exceeds 0x10000 directly as an
operand of an add or sub". -/
theorem patch_instructions_magnitude_refuted :
    patch_instructions overMagnitudeProgram = overMagnitudeProgram
    ∧ overMagnitudeImm (.addq (.deref .rbp (-8)) (.imm (-70000))) = true
    ∧ overMagnitudeImm (.addq (.reg .rbx) (.imm 131072)) = true := by
  exact ⟨rfl, by decide, by decide⟩

lemma patch_instr_all_legal (i : VarInstr) :
    (patch_instr i).all (fun k => !twoMemInstr k && !overImmInstr k) = true := by
  cases i with
  | addq l r =>
      cases l with
      | deref base off =>
          cases r with
          | deref b2 o2 => rfl
          | imm v =>
              by_cases hv : (0x10000 : Int) < v <;>
                simp [patch_instr, hv, twoMemInstr, overImmInstr, isMemArg]
          | reg r2 => rfl
          | var n => rfl
      | imm v => cases r <;> rfl
      | reg r2 => cases r <;> rfl
      | var n => cases r <;> rfl
  | subq l r =>
      cases l with
      | deref base off =>
          cases r with
          | deref b2 o2 => rfl
          | imm v =>
              by_cases hv : (0x10000 : Int) < v <;>
                simp [patch_instr, hv, twoMemInstr, overImmInstr, isMemArg]
          | reg r2 => rfl
          | var n => rfl
      | imm v => cases r <;> rfl
      | reg r2 => cases r <;> rfl
      | var n => cases r <;> rfl
  | movq s d =>
      cases s with
      | deref base off => cases d <;> rfl
      | imm v =>
          cases d with
          | deref b2 o2 =>
              by_cases hv : (0x10000 : Int) < v <;>
                simp [patch_instr, hv, twoMemInstr, overImmInstr, isMemArg]
          | imm w => rfl
          | reg r2 => rfl
          | var n => rfl
      | reg r2 => cases d <;> rfl
      | var n => cases d <;> rfl
  | negq o => rfl
  | pushq o => rfl
  | popq o => rfl
  | callq c => rfl
  | retq => rfl
  | jmp t => rfl

lemma patch_instr_unmatched (i : VarInstr)
    (h1 : twoMemInstr i = false) (h2 : overImmInstr i = false) :
    patch_instr i = [i] := by
  cases i with
  | addq l r =>
      cases l with
      | deref base off =>
          cases r with
          | deref b2 o2 => simp [twoMemInstr, isMemArg] at h1
          | imm v =>
              have hv : ¬ ((0x10000 : Int) < v) := by
                simpa [overImmInstr, isMemArg] using h2
              simp [patch_instr, hv]
          | reg r2 => rfl
          | var n => rfl
      | imm v => cases r <;> rfl
      | reg r2 => cases r <;> rfl
      | var n => cases r <;> rfl
  | subq l r =>
      cases l with
      | deref base off =>
          cases r with
          | deref b2 o2 => simp [twoMemInstr, isMemArg] at h1
          | imm v =>
              have hv : ¬ ((0x10000 : Int) < v) := by
                simpa [overImmInstr, isMemArg] using h2
              simp [patch_instr, hv]
          | reg r2 => rfl
          | var n => rfl
      | imm v => cases r <;> rfl
      | reg r2 => cases r <;> rfl
      | var n => cases r <;> rfl
  | movq s d =>
      cases s with
      | deref base off =>
          cases d with
          | deref b2 o2 => simp [twoMemInstr, isMemArg] at h1
          | imm v => rfl
          | reg r2 => rfl
          | var n => rfl
      | imm v =>
          cases d with
          | deref b2 o2 =>
              have hv : ¬ ((0x10000 : Int) < v) := by
                simpa [overImmInstr, isMemArg] using h2
              simp [patch_instr, hv]
          | imm w => rfl
          | reg r2 => rfl
          | var n => rfl
      | reg r2 => cases d <;> rfl
      | var n => cases d <;> rfl
  | negq o => rfl
  | pushq o => rfl
  | popq o => rfl
  | callq c => rfl
  | retq => rfl
  | jmp t => rfl

lemma transform_foldl_eq (is : List VarInstr) (acc : List VarInstr) :
    is.foldl (fun a i => a ++ patch_instr i) acc = acc ++ is.flatMap patch_instr := by
  induction is generalizing acc with
  | nil => simp
  | cons x xs ih => simp [List.foldl_cons, ih, List.append_assoc]

lemma transform_block_instructions (b : VarBlock) :
    (transform_block b).instructions = b.instructions.flatMap patch_instr := by
  rw [transform_block]
  simpa using transform_foldl_eq b.instructions []

/-- Claim C4 as amended: after `patch_instructions` no `Addq`, `Subq`, or
`Movq` has two memory operands, and no immediate whose signed value
exceeds `0x10000` appears as the right operand of a memory-destination add
or sub or as the source of a move into memory; the variable list and the
block labels are preserved; a block none of whose instructions matches a
rewrite rule passes through entirely unmodified; and the rewrite is a
per-instruction homomorphism over concatenation, so instruction order is
preserved and instructions are never merged or reordered. -/
theorem patch_instructions_legal (p : VarProgram) :
    (∀ b ∈ (patch_instructions p).body, ∀ i ∈ b.instructions,
        twoMemInstr i = false ∧ overImmInstr i = false)
    ∧ (patch_instructions p).local_variables = p.local_variables
    ∧ (patch_instructions p).body.map VarBlock.label = p.body.map VarBlock.label
    ∧ (∀ b ∈ p.body,
        (∀ i ∈ b.instructions, twoMemInstr i = false ∧ overImmInstr i = false) →
          transform_block b = b)
    ∧ (∀ (lbl : String) (is1 is2 : List VarInstr),
        (transform_block { label := lbl, instructions := is1 ++ is2 }).instructions
          = (transform_block { label := lbl, instructions := is1 }).instructions
            ++ (transform_block { label := lbl, instructions := is2 }).instructions) := by
  refine ⟨?_, rfl, ?_, ?_, ?_⟩
  · intro b hb i hi
    rw [patch_instructions] at hb
    simp only [List.mem_map] at hb
    obtain ⟨b0, _, rfl⟩ := hb
    rw [transform_block_instructions] at hi
    obtain ⟨j, _, hji⟩ := List.mem_flatMap.mp hi
    have := patch_instr_all_legal j
    rw [List.all_eq_true] at this
    have h := this i hji
    simp only [Bool.and_eq_true, Bool.not_eq_true'] at h
    exact h
  · rw [patch_instructions]
    simp [transform_block]
  · intro b _ hall
    have hbind : b.instructions.flatMap patch_instr = b.instructions := by
      have hgen : ∀ is : List VarInstr,
          (∀ i ∈ is, twoMemInstr i = false ∧ overImmInstr i = false) →
            is.flatMap patch_instr = is := by
        intro is
        induction is with
        | nil => intro _; rfl
        | cons x xs ih =>
            intro h
            have hx := h x (List.mem_cons_self x xs)
            rw [List.flatMap_cons, patch_instr_unmatched x hx.1 hx.2,
                ih (fun i hi => h i (List.mem_cons_of_mem x hi))]
            rfl
      exact hgen b.instructions hall
    cases b with
    | mk lbl is =>
        have hinstr := transform_block_instructions { label := lbl, instructions := is }
        simp only at hinstr hbind
        rw [transform_block]
        refine congrArg (fun l => VarBlock.mk lbl l) ?_
        calc is.foldl (fun a i => a ++ patch_instr i) []
            = [] ++ is.flatMap patch_instr := transform_foldl_eq is []
          _ = is := by rw [List.nil_append]; exact hbind
  · intro lbl is1 is2
    rw [transform_block_instructions, transform_block_instructions,
        transform_block_instructions]
    simp [List.flatMap_append]

/-- Witness for `patch_instructions_legal`: instantiated on a one-block
program containing a two-memory move and a small-immediate add, every
output instruction of the patched program is legal. -/
theorem patch_instructions_legal_witness :
    twoMemInstr (.movq (.deref .rbp (-8)) (.reg .rax)) = false
    ∧ overImmInstr (.movq (.deref .rbp (-8)) (.reg .rax)) = false := by
  have h := (patch_instructions_legal
      { local_variables := [],
        body := [{ label := "main",
                   instructions := [.movq (.deref .rbp (-8)) (.deref .rbp (-16)),
                                    .addq (.deref .rbp (-8)) (.imm 3)] }] }).1
  exact h { label := "main",
            instructions := [.movq (.deref .rbp (-8)) (.reg .rax),
                             .movq (.reg .rax) (.deref .rbp (-16)),
                             .addq (.deref .rbp (-8)) (.imm 3)] }
    (by decide)
    (.movq (.deref .rbp (-8)) (.reg .rax)) (by decide)

/-- The symbolic-variable names occurring in an operand. -/
def argVars : VarArg → List String
  | .var n => [n]
  | _ => []

/-- The symbolic-variable names occurring in an instruction's operands. -/
def instrVars : VarInstr → List String
  | .addq l r => argVars l ++ argVars r
  | .subq l r => argVars l ++ argVars r
  | .movq s d => argVars s ++ argVars d
  | .negq o => argVars o
  | .pushq o => argVars o
  | .popq o => argVars o
  | _ => []

/-- The home offset claim C7 describes: the first-declared variable gets
`-8` and each subsequent variable the next multiple of 8 below it. -/
def specVarOffset : List String → String → Int
  | [], _ => 0
  | x :: rest, n => if x = n then -8 else specVarOffset rest n - 8

/-- The substitution claim C7 describes on one operand: replace a symbolic
variable by `Deref(RBP, offset)` at its declaration-order offset. -/
def specHomeArg (vars : List String) : VarArg → VarArg
  | .var n => .deref .rbp (specVarOffset vars n)
  | other => other

/-- The claim's substitution on one instruction: operand positions of
`Addq`/`Subq`/`Movq`/`Negq`/`Pushq`/`Popq` are rewritten,
`Callq`/`Retq`/`Jmp` untouched. -/
def specHomeInstr (vars : List String) : VarInstr → VarInstr
  | .addq l r => .addq (specHomeArg vars l) (specHomeArg vars r)
  | .subq l r => .subq (specHomeArg vars l) (specHomeArg vars r)
  | .movq s d => .movq (specHomeArg vars s) (specHomeArg vars d)
  | .negq o => .negq (specHomeArg vars o)
  | .pushq o => .pushq (specHomeArg vars o)
  | .popq o => .popq (specHomeArg vars o)
  | other => other

/-- The claim's substitution on a block. -/
def specHomeBlock (vars : List String) (b : VarBlock) : VarBlock :=
  { label := b.label, instructions := b.instructions.map (specHomeInstr vars) }

lemma locGet_locInsert_self (m : List (String × Int)) (k : String) (v : Int) :
    locGet (locInsert m k v) k = some v := by
  induction m with
  | nil => simp [locInsert, locGet]
  | cons p rest ih =>
      by_cases h : p.1 = k
      · simp [locInsert, locGet, h]
      · simp [locInsert, locGet, h, ih]

lemma locGet_locInsert_ne (m : List (String × Int)) (k : String) (v : Int)
    (k2 : String) (h : k ≠ k2) :
    locGet (locInsert m k v) k2 = locGet m k2 := by
  induction m with
  | nil => simp [locInsert, locGet, h]
  | cons p rest ih =>
      by_cases hp : p.1 = k
      · subst hp
        simp [locInsert, locGet, h]
      · simp [locInsert, locGet, hp, ih]

lemma assign_homes_go_not_mem (vs : List String) (m : List (String × Int))
    (offset : Int) (n : String) (h : n ∉ vs) :
    locGet (assign_homes_go m offset vs) n = locGet m n := by
  induction vs generalizing m offset with
  | nil => rfl
  | cons x rest ih =>
      rw [assign_homes_go, ih _ _ (fun hr => h (List.mem_cons_of_mem x hr)),
          locGet_locInsert_ne]
      exact fun hx => h (hx ▸ List.mem_cons_self x rest)

lemma assign_homes_go_mem (vs : List String) (hnd : vs.Nodup) (m : List (String × Int))
    (offset : Int) (n : String) (h : n ∈ vs) :
    locGet (assign_homes_go m offset vs) n = some (offset + 8 + specVarOffset vs n) := by
  induction vs generalizing m offset with
  | nil => cases h
  | cons x rest ih =>
      rw [List.nodup_cons] at hnd
      by_cases hx : x = n
      · subst hx
        rw [assign_homes_go, assign_homes_go_not_mem rest _ _ _ hnd.1,
            locGet_locInsert_self, specVarOffset, if_pos rfl]
        congr 1
        omega
      · have hr : n ∈ rest := by
          cases List.mem_cons.mp h with
          | inl heq => exact absurd heq.symm hx
          | inr hm => exact hm
        rw [assign_homes_go, ih hnd.2 _ _ hr, specVarOffset, if_neg hx]
        congr 1
        omega

lemma locGet_homes (vars : List String) (hnd : vars.Nodup) (n : String) (h : n ∈ vars) :
    locGet (assign_homes_for_variables vars) n = some (specVarOffset vars n) := by
  rw [assign_homes_for_variables, assign_homes_go_mem vars hnd [] (-8) n h]
  congr 1
  omega

lemma modify_arg_spec (vars : List String) (hnd : vars.Nodup) (a : VarArg)
    (h : ∀ n ∈ argVars a, n ∈ vars) :
    modify_arg (assign_homes_for_variables vars) a = some (specHomeArg vars a) := by
  cases a with
  | var n =>
      have hn : n ∈ vars := h n (by simp [argVars])
      rw [modify_arg, locGet_homes vars hnd n hn]
      rfl
  | imm v => rfl
  | reg r => rfl
  | deref r o => rfl

lemma modify_instr_spec (vars : List String) (hnd : vars.Nodup) (i : VarInstr)
    (h : ∀ n ∈ instrVars i, n ∈ vars) :
    modify_instr (assign_homes_for_variables vars) i = some (specHomeInstr vars i) := by
  cases i with
  | addq l r =>
      rw [modify_instr,
          modify_arg_spec vars hnd l (fun n hn => h n (by simp [instrVars, hn])),
          modify_arg_spec vars hnd r (fun n hn => h n (by simp [instrVars, hn]))]
      rfl
  | subq l r =>
      rw [modify_instr,
          modify_arg_spec vars hnd l (fun n hn => h n (by simp [instrVars, hn])),
          modify_arg_spec vars hnd r (fun n hn => h n (by simp [instrVars, hn]))]
      rfl
  | movq s d =>
      rw [modify_instr,
          modify_arg_spec vars hnd s (fun n hn => h n (by simp [instrVars, hn])),
          modify_arg_spec vars hnd d (fun n hn => h n (by simp [instrVars, hn]))]
      rfl
  | negq o =>
      rw [modify_instr, modify_arg_spec vars hnd o (fun n hn => h n (by simp [instrVars, hn]))]
      rfl
  | pushq o =>
      rw [modify_instr, modify_arg_spec vars hnd o (fun n hn => h n (by simp [instrVars, hn]))]
      rfl
  | popq o =>
      rw [modify_instr, modify_arg_spec vars hnd o (fun n hn => h n (by simp [instrVars, hn]))]
      rfl
  | callq c => rfl
  | retq => rfl
  | jmp t => rfl

lemma mapOpt_eq_map {α β : Type} (f : α → Option β) (g : α → β) (l : List α)
    (h : ∀ x ∈ l, f x = some (g x)) :
    mapOpt f l = some (l.map g) := by
  induction l with
  | nil => rfl
  | cons x rest ih =>
      rw [mapOpt, h x (List.mem_cons_self x rest),
          ih (fun y hy => h y (List.mem_cons_of_mem x hy))]
      rfl

lemma specVarOffset_mem (vs : List String) (n : String) (h : n ∈ vs) :
    ∃ k : Nat, k < vs.length ∧ specVarOffset vs n = -(8 * ((k : Int) + 1)) := by
  induction vs with
  | nil => cases h
  | cons x rest ih =>
      by_cases hx : x = n
      · exact ⟨0, by simp, by rw [specVarOffset, if_pos hx]; norm_num⟩
      · have hr : n ∈ rest := by
          cases List.mem_cons.mp h with
          | inl heq => exact absurd heq.symm hx
          | inr hm => exact hm
        obtain ⟨k, hk, hoff⟩ := ih hr
        refine ⟨k + 1, by simp; omega, ?_⟩
        rw [specVarOffset, if_neg hx, hoff]
        push_cast
        ring

lemma specVarOffset_inj (vs : List String) (n1 n2 : String)
    (h1 : n1 ∈ vs) (h2 : n2 ∈ vs)
    (heq : specVarOffset vs n1 = specVarOffset vs n2) : n1 = n2 := by
  induction vs with
  | nil => cases h1
  | cons x rest ih =>
      by_cases hx1 : x = n1 <;> by_cases hx2 : x = n2
      · rw [← hx1, ← hx2]
      · have hr2 : n2 ∈ rest := by
          cases List.mem_cons.mp h2 with
          | inl heq2 => exact absurd heq2.symm hx2
          | inr hm => exact hm
        obtain ⟨k, _, hoff⟩ := specVarOffset_mem rest n2 hr2
        rw [specVarOffset, if_pos hx1, specVarOffset, if_neg hx2, hoff] at heq
        omega
      · have hr1 : n1 ∈ rest := by
          cases List.mem_cons.mp h1 with
          | inl heq1 => exact absurd heq1.symm hx1
          | inr hm => exact hm
        obtain ⟨k, _, hoff⟩ := specVarOffset_mem rest n1 hr1
        rw [specVarOffset, if_neg hx1, hoff, specVarOffset, if_pos hx2] at heq
        omega
      · have hr1 : n1 ∈ rest := by
          cases List.mem_cons.mp h1 with
          | inl heq1 => exact absurd heq1.symm hx1
          | inr hm => exact hm
        have hr2 : n2 ∈ rest := by
          cases List.mem_cons.mp h2 with
          | inl heq2 => exact absurd heq2.symm hx2
          | inr hm => exact hm
        rw [specVarOffset, if_neg hx1, specVarOffset, if_neg hx2] at heq
        exact ih hr1 hr2 (by omega)

lemma specHomeArg_no_vars (vars : List String) (a : VarArg) :
    argVars (specHomeArg vars a) = [] := by
  cases a <;> rfl

lemma specHomeInstr_no_vars (vars : List String) (i : VarInstr) :
    instrVars (specHomeInstr vars i) = [] := by
  cases i <;> simp [specHomeInstr, instrVars, specHomeArg_no_vars]

/-- Claim C7 as amended: for every pseudo-assembly program whose symbolic
operands are all listed in the program's variable list and whose variable
list has no duplicate names, `assign_homes` succeeds and is exactly the
claim's substitution — every `SymbolicVariable` becomes `Deref(RBP, off)`
with the first-declared variable at `-8` and each subsequent one the next
multiple of 8 below, the variable list is cleared, `Callq`/`Retq`/`Jmp`
are untouched, no symbolic variable remains anywhere, and the offsets used
are pairwise distinct negative multiples of 8 assigned densely in
declaration order. -/
theorem assign_homes_spec (p : VarProgram)
    (hvars : ∀ b ∈ p.body, ∀ i ∈ b.instructions, ∀ n ∈ instrVars i, n ∈ p.local_variables)
    (hnodup : p.local_variables.Nodup) :
    assign_homes p
      = some { local_variables := [],
               body := p.body.map (specHomeBlock p.local_variables) }
    ∧ (∀ b ∈ p.body.map (specHomeBlock p.local_variables),
        ∀ i ∈ b.instructions, instrVars i = [])
    ∧ (∀ n1 ∈ p.local_variables, ∀ n2 ∈ p.local_variables,
        specVarOffset p.local_variables n1 = specVarOffset p.local_variables n2 → n1 = n2)
    ∧ (∀ n ∈ p.local_variables, ∃ k : Nat, k < p.local_variables.length ∧
        specVarOffset p.local_variables n = -(8 * ((k : Int) + 1))) := by
  refine ⟨?_, ?_, ?_, ?_⟩
  · rw [assign_homes,
        mapOpt_eq_map _ (specHomeBlock p.local_variables) p.body ?_]
    intro b hb
    rw [modify_block,
        mapOpt_eq_map _ (specHomeInstr p.local_variables) b.instructions ?_]
    · rfl
    · intro i hi
      exact modify_instr_spec p.local_variables hnodup i (hvars b hb i hi)
  · intro b hb i hi
    simp only [List.mem_map] at hb
    obtain ⟨b0, _, rfl⟩ := hb
    simp only [specHomeBlock, List.mem_map] at hi
    obtain ⟨i0, _, rfl⟩ := hi
    exact specHomeInstr_no_vars p.local_variables i0
  · exact fun n1 h1 n2 h2 heq => specVarOffset_inj p.local_variables n1 n2 h1 h2 heq
  · exact fun n hn => specVarOffset_mem p.local_variables n hn

/-- A small well-formed symbolic program used to witness
`assign_homes_spec`. -/
def homesWitnessProgram : VarProgram :=
  { local_variables := ["a", "b"],
    body := [{ label := "main",
               instructions := [.movq (.imm 1) (.var "a"),
                                .addq (.var "a") (.var "b"),
                                .retq] }] }

/-- Witness for `assign_homes_spec` on `homesWitnessProgram`. -/
theorem assign_homes_spec_witness :
    assign_homes homesWitnessProgram
      = some { local_variables := [],
               body := homesWitnessProgram.body.map
                 (specHomeBlock homesWitnessProgram.local_variables) } :=
  (assign_homes_spec homesWitnessProgram (by decide) (by decide)).1

/-- Whether a statement is a `Return`. -/
def isRetStmt : Stmt → Bool
  | .ret _ => true
  | .assign _ _ => false

/-- The let-bound names of a surface expression in first-declaration
order, as the Explicator declares them: inside a `Let`, the initializer's
bindings complete first, then the `Let`'s own name, then the body's.
Operator operands contribute nothing (on inputs the Explicator accepts
they are atomic). -/
def specLetBoundNames : LExpr → List String
  | .letE x initExpr body =>
      specLetBoundNames initExpr ++ [x] ++ specLetBoundNames body
  | _ => []

lemma explicate_assign_locals (e : LExpr) :
    ∀ p p2 rhs, explicate_assign p e = some (p2, rhs) →
      p2.locals = p.locals ++ specLetBoundNames e
      ∧ ∃ l, p2.body = p.body ++ l ∧ ∀ s ∈ l, isRetStmt s = false := by
  induction e with
  | integer v =>
      intro p p2 rhs h
      rw [explicate_assign] at h
      obtain ⟨rfl, -⟩ := Prod.mk.injEq .. ▸ Option.some.inj h
      exact ⟨by simp [specLetBoundNames], [], by simp, by simp⟩
  | read =>
      intro p p2 rhs h
      rw [explicate_assign] at h
      obtain ⟨rfl, -⟩ := Prod.mk.injEq .. ▸ Option.some.inj h
      exact ⟨by simp [specLetBoundNames], [], by simp, by simp⟩
  | ident n =>
      intro p p2 rhs h
      rw [explicate_assign] at h
      obtain ⟨rfl, -⟩ := Prod.mk.injEq .. ▸ Option.some.inj h
      exact ⟨by simp [specLetBoundNames], [], by simp, by simp⟩
  | unaryOp k o iho =>
      intro p p2 rhs h
      rw [explicate_assign] at h
      cases hga : gen_atom o with
      | none => rw [hga] at h; cases h
      | some a =>
          rw [hga] at h
          obtain ⟨rfl, -⟩ := Prod.mk.injEq .. ▸ Option.some.inj h
          exact ⟨by simp [specLetBoundNames], [], by simp, by simp⟩
  | binaryOp k l r ihl ihr =>
      intro p p2 rhs h
      rw [explicate_assign] at h
      cases hgl : gen_atom l with
      | none => rw [hgl] at h; cases h
      | some la =>
          cases hgr : gen_atom r with
          | none => rw [hgl, hgr] at h; cases h
          | some ra =>
              rw [hgl, hgr] at h
              obtain ⟨rfl, -⟩ := Prod.mk.injEq .. ▸ Option.some.inj h
              exact ⟨by simp [specLetBoundNames], [], by simp, by simp⟩
  | letE x initE body ihi ihb =>
      intro p p2 rhs h
      rw [explicate_assign] at h
      cases hi : explicate_assign p initE with
      | none => rw [hi] at h; cases h
      | some pr =>
          obtain ⟨p1, rhs1⟩ := pr
          rw [hi] at h
          obtain ⟨hl1, l1, hb1, hnr1⟩ := ihi p p1 rhs1 hi
          obtain ⟨hl2, l2, hb2, hnr2⟩ := ihb _ p2 rhs h
          refine ⟨?_, l1 ++ [Stmt.assign x rhs1] ++ l2, ?_, ?_⟩
          · rw [hl2]
            simp only [hl1, specLetBoundNames, List.append_assoc]
          · rw [hb2]
            simp only [hb1, List.append_assoc]
          · intro s hs
            rcases List.mem_append.mp hs with hs1 | hs2
            · rcases List.mem_append.mp hs1 with hs1a | hs1b
              · exact hnr1 s hs1a
              · rw [List.mem_singleton.mp hs1b]; rfl
            · exact hnr2 s hs2

lemma explicate_tail_step (e : LExpr) (p q : CProgram)
    (heq : explicate_tail p e =
      (match explicate_assign p e with
       | none => none
       | some (p1, operand) => some { p1 with body := p1.body ++ [Stmt.ret operand] }))
    (h : explicate_tail p e = some q) :
    q.locals = p.locals ++ specLetBoundNames e
    ∧ ∃ l a, q.body = p.body ++ l ++ [Stmt.ret a] ∧ ∀ s ∈ l, isRetStmt s = false := by
  rw [heq] at h
  cases hass : explicate_assign p e with
  | none => rw [hass] at h; cases h
  | some pr =>
      obtain ⟨p1, operand⟩ := pr
      rw [hass] at h
      obtain ⟨hl, l, hb, hnr⟩ := explicate_assign_locals e p p1 operand hass
      cases Option.some.inj h
      exact ⟨hl, l, operand, by rw [hb, List.append_assoc], hnr⟩

lemma explicate_tail_locals (e : LExpr) :
    ∀ p q, explicate_tail p e = some q →
      q.locals = p.locals ++ specLetBoundNames e
      ∧ ∃ l a, q.body = p.body ++ l ++ [Stmt.ret a] ∧ ∀ s ∈ l, isRetStmt s = false := by
  induction e with
  | integer v => exact fun p q h => explicate_tail_step _ p q rfl h
  | read => exact fun p q h => explicate_tail_step _ p q rfl h
  | ident n => exact fun p q h => explicate_tail_step _ p q rfl h
  | unaryOp k o iho => exact fun p q h => explicate_tail_step _ p q rfl h
  | binaryOp k l r ihl ihr => exact fun p q h => explicate_tail_step _ p q rfl h
  | letE x initE body ihi ihb =>
      intro p q h
      rw [explicate_tail] at h
      cases hi : explicate_assign p initE with
      | none => rw [hi] at h; cases h
      | some pr =>
          obtain ⟨p1, rhs1⟩ := pr
          rw [hi] at h
          obtain ⟨hl1, l1, hb1, hnr1⟩ := explicate_assign_locals initE p p1 rhs1 hi
          obtain ⟨hl2, l2, a, hb2, hnr2⟩ := ihb _ q h
          refine ⟨?_, l1 ++ [Stmt.assign x rhs1] ++ l2, a, ?_, ?_⟩
          · rw [hl2]
            simp only [hl1, specLetBoundNames, List.append_assoc]
          · rw [hb2]
            simp only [hb1, List.append_assoc]
          · intro s hs
            rcases List.mem_append.mp hs with hs1 | hs2
            · rcases List.mem_append.mp hs1 with hs1a | hs1b
              · exact hnr1 s hs1a
              · rw [List.mem_singleton.mp hs1b]; rfl
            · exact hnr2 s hs2

/-- Claim C8: confirmed.  Whenever `explicate_control` produces a
Three-Address Program (i.e. does not panic on a malformed operand), the
body is a list of non-`Return` statements followed by exactly one
`Return`, the final statement; and `locals` is exactly the let-bound
names of the input in first-declaration order, so when the input is
renamed (its bound names pairwise distinct) `locals` has no
duplicates. -/
theorem explicate_control_shape (e : LExpr) (p : CProgram)
    (h : explicate_control e = some p) :
    (∃ l a, p.body = l ++ [Stmt.ret a] ∧ ∀ s ∈ l, isRetStmt s = false)
    ∧ p.locals = specLetBoundNames e
    ∧ ((specLetBoundNames e).Nodup → p.locals.Nodup) := by
  obtain ⟨hl, l, a, hb, hnr⟩ :=
    explicate_tail_locals e { locals := [], body := [] } p h
  simp only [List.nil_append] at hl hb
  exact ⟨⟨l, a, hb, hnr⟩, hl, fun hnd => hl ▸ hnd⟩

/-- The program `let ([x 1]) x` and its Three-Address form, witnessing
`explicate_control_shape`. -/
def explicateWitnessOutput : CProgram :=
  { locals := ["x"],
    body := [Stmt.assign "x" (.atom (.integer 1)), Stmt.ret (.atom (.var "x"))] }

/-- Witness for `explicate_control_shape` on `let ([x 1]) x`. -/
theorem explicate_control_shape_witness :
    (∃ l a, explicateWitnessOutput.body = l ++ [Stmt.ret a]
        ∧ ∀ s ∈ l, isRetStmt s = false)
    ∧ explicateWitnessOutput.locals
        = specLetBoundNames (.letE "x" (.integer 1) (.ident "x"))
    ∧ ((specLetBoundNames (.letE "x" (.integer 1) (.ident "x"))).Nodup →
        explicateWitnessOutput.locals.Nodup) :=
  explicate_control_shape (.letE "x" (.integer 1) (.ident "x"))
    explicateWitnessOutput rfl

/-- Boolean membership of a name in an environment of bound names. -/
def envContains : List String → String → Bool
  | [], _ => false
  | x :: rest, n => if x = n then true else envContains rest n

/-- The source names bound somewhere in the scope stack (the keys of every
scope map, innermost first). -/
def tableKeys : List (List (String × String)) → List String
  | [] => []
  | scope :: rest => scope.map Prod.fst ++ tableKeys rest

/-- The specification predicate for claim C9: the expression contains an
identifier occurrence with no enclosing `Let` binding, given the names
`env` bound by the context.  A `Let`'s initializer is resolved in the
scope before its own binding is introduced. -/
def specHasUnbound (env : List String) : LExpr → Bool
  | .integer _ => false
  | .read => false
  | .ident n => !envContains env n
  | .unaryOp _ o => specHasUnbound env o
  | .binaryOp _ l r => specHasUnbound env l || specHasUnbound env r
  | .letE x i b => specHasUnbound env i || specHasUnbound (x :: env) b

/-- The specification predicate for the reported name of claim C9: the
expression contains an occurrence of the identifier `n` with no enclosing
`Let` binding of `n`. -/
def specUnboundOccurs (env : List String) (n : String) : LExpr → Bool
  | .integer _ => false
  | .read => false
  | .ident m => decide (m = n) && !envContains env m
  | .unaryOp _ o => specUnboundOccurs env n o
  | .binaryOp _ l r => specUnboundOccurs env n l || specUnboundOccurs env n r
  | .letE x i b => specUnboundOccurs env n i || specUnboundOccurs (x :: env) n b

/-- Whether an `Except` result is a success. -/
def exceptOk {ε α : Type} : Except ε α → Bool
  | .ok _ => true
  | .error _ => false

lemma scopeGet_isSome (s : List (String × String)) (n : String) :
    (scopeGet s n).isSome = envContains (s.map Prod.fst) n := by
  induction s with
  | nil => rfl
  | cons p rest ih =>
      by_cases h : p.1 = n
      · simp [scopeGet, envContains, h]
      · simp [scopeGet, envContains, h, ih]

lemma envContains_append (a b : List String) (n : String) :
    envContains (a ++ b) n = (envContains a n || envContains b n) := by
  induction a with
  | nil => rfl
  | cons x rest ih =>
      by_cases h : x = n
      · simp [envContains, h]
      · simp [envContains, h, ih]

lemma lookupName_isSome (t : List (List (String × String))) (n : String) :
    (lookupName t n).isSome = envContains (tableKeys t) n := by
  induction t with
  | nil => rfl
  | cons scope rest ih =>
      rw [lookupName, tableKeys, envContains_append, ← scopeGet_isSome, ← ih]
      cases scopeGet scope n <;> simp

lemma tableKeys_bodyState (x : String) (st1 : UniquifyState) :
    tableKeys (bodyState x st1).symbolTable = x :: tableKeys st1.symbolTable := rfl

lemma boolIffNeg (a b : Bool) (h : a = true ↔ b = false) (ha : a = false) : b = true := by
  revert h ha
  revert a b
  decide

lemma run_on_expr_spec (e : LExpr) :
    ∀ st : UniquifyState,
      (∀ e2 st2, run_on_expr st e = .ok (e2, st2) → st2.symbolTable = st.symbolTable)
      ∧ (exceptOk (run_on_expr st e) = true
          ↔ specHasUnbound (tableKeys st.symbolTable) e = false)
      ∧ (∀ n, run_on_expr st e = .error (.unknownIdentifier n) →
          specUnboundOccurs (tableKeys st.symbolTable) n e = true) := by
  induction e with
  | integer v =>
      intro st
      refine ⟨?_, ?_, ?_⟩
      · intro e2 st2 h
        rw [run_on_expr] at h
        cases h
        rfl
      · rw [run_on_expr]
        simp [exceptOk, specHasUnbound]
      · intro n h
        rw [run_on_expr] at h
        cases h
  | read =>
      intro st
      refine ⟨?_, ?_, ?_⟩
      · intro e2 st2 h
        rw [run_on_expr] at h
        cases h
        rfl
      · rw [run_on_expr]
        simp [exceptOk, specHasUnbound]
      · intro n h
        rw [run_on_expr] at h
        cases h
  | ident nm =>
      intro st
      cases hl : lookupName st.symbolTable nm with
      | some r =>
          have hks : envContains (tableKeys st.symbolTable) nm = true := by
            rw [← lookupName_isSome, hl]
            rfl
          refine ⟨?_, ?_, ?_⟩
          · intro e2 st2 h
            rw [run_on_expr, hl] at h
            cases h
            rfl
          · rw [run_on_expr, hl]
            simp [exceptOk, specHasUnbound, hks]
          · intro n h
            rw [run_on_expr, hl] at h
            cases h
      | none =>
          have hks : envContains (tableKeys st.symbolTable) nm = false := by
            rw [← lookupName_isSome, hl]
            rfl
          refine ⟨?_, ?_, ?_⟩
          · intro e2 st2 h
            rw [run_on_expr, hl] at h
            cases h
          · rw [run_on_expr, hl]
            simp [exceptOk, specHasUnbound, hks]
          · intro n h
            rw [run_on_expr, hl] at h
            cases h
            simp [specUnboundOccurs, hks]
  | unaryOp k o iho =>
      intro st
      obtain ⟨iho1, iho2, iho3⟩ := iho st
      cases hro : run_on_expr st o with
      | error err =>
          have hhas : specHasUnbound (tableKeys st.symbolTable) o = true :=
            boolIffNeg _ _ iho2 (by rw [hro]; rfl)
          refine ⟨?_, ?_, ?_⟩
          · intro e2 st2 h
            rw [run_on_expr, hro] at h
            cases h
          · rw [run_on_expr, hro]
            simp [exceptOk, specHasUnbound, hhas]
          · intro n h
            rw [run_on_expr, hro] at h
            cases h
            have := iho3 n (by rw [hro])
            simpa [specUnboundOccurs] using this
      | ok pr =>
          obtain ⟨o1, st1⟩ := pr
          have htab := iho1 o1 st1 hro
          have hhas : specHasUnbound (tableKeys st.symbolTable) o = false :=
            iho2.mp (by rw [hro]; rfl)
          refine ⟨?_, ?_, ?_⟩
          · intro e2 st2 h
            rw [run_on_expr, hro] at h
            cases h
            exact htab
          · rw [run_on_expr, hro]
            simp [exceptOk, specHasUnbound, hhas]
          · intro n h
            rw [run_on_expr, hro] at h
            cases h
  | binaryOp k l r ihl ihr =>
      intro st
      obtain ⟨ihl1, ihl2, ihl3⟩ := ihl st
      cases hrl : run_on_expr st l with
      | error err =>
          have hhas : specHasUnbound (tableKeys st.symbolTable) l = true :=
            boolIffNeg _ _ ihl2 (by rw [hrl]; rfl)
          refine ⟨?_, ?_, ?_⟩
          · intro e2 st2 h
            rw [run_on_expr, hrl] at h
            cases h
          · rw [run_on_expr, hrl]
            simp [exceptOk, specHasUnbound, hhas]
          · intro n h
            rw [run_on_expr, hrl] at h
            cases h
            have := ihl3 n (by rw [hrl])
            simp [specUnboundOccurs, this]
      | ok pr =>
          obtain ⟨l1, st1⟩ := pr
          have htab1 := ihl1 l1 st1 hrl
          have hhasl : specHasUnbound (tableKeys st.symbolTable) l = false :=
            ihl2.mp (by rw [hrl]; rfl)
          obtain ⟨ihr1, ihr2, ihr3⟩ := ihr st1
          rw [htab1] at ihr2 ihr3
          have hstep : run_on_expr st (.binaryOp k l r)
              = (match run_on_expr st1 r with
                 | .error e => .error e
                 | .ok (r1, st2) => .ok (.binaryOp k l1 r1, st2)) := by
            rw [run_on_expr, hrl]
          cases hrr : run_on_expr st1 r with
          | error err =>
              have hstep2 : run_on_expr st (.binaryOp k l r) = .error err := by
                rw [hstep, hrr]
              have hhas : specHasUnbound (tableKeys st.symbolTable) r = true :=
                boolIffNeg _ _ ihr2 (by rw [hrr]; rfl)
              refine ⟨?_, ?_, ?_⟩
              · intro e2 st2 h
                rw [hstep2] at h
                cases h
              · rw [hstep2]
                simp [exceptOk, specHasUnbound, hhas]
              · intro n h
                rw [hstep2] at h
                cases h
                have := ihr3 n (by rw [hrr])
                simp [specUnboundOccurs, this]
          | ok pr2 =>
              obtain ⟨r1, st2a⟩ := pr2
              have hstep2 : run_on_expr st (.binaryOp k l r)
                  = .ok (.binaryOp k l1 r1, st2a) := by
                rw [hstep, hrr]
              have htab2 := ihr1 r1 st2a hrr
              have hhasr : specHasUnbound (tableKeys st.symbolTable) r = false :=
                ihr2.mp (by rw [hrr]; rfl)
              refine ⟨?_, ?_, ?_⟩
              · intro e2 st2 h
                rw [hstep2] at h
                cases h
                rw [htab2, htab1]
              · rw [hstep2]
                simp [exceptOk, specHasUnbound, hhasl, hhasr]
              · intro n h
                rw [hstep2] at h
                cases h
  | letE x initE body ihi ihb =>
      intro st
      obtain ⟨ihi1, ihi2, ihi3⟩ := ihi st
      cases hri : run_on_expr st initE with
      | error err =>
          have hhas : specHasUnbound (tableKeys st.symbolTable) initE = true :=
            boolIffNeg _ _ ihi2 (by rw [hri]; rfl)
          refine ⟨?_, ?_, ?_⟩
          · intro e2 st2 h
            rw [run_on_expr, hri] at h
            cases h
          · rw [run_on_expr, hri]
            simp [exceptOk, specHasUnbound, hhas]
          · intro n h
            rw [run_on_expr, hri] at h
            cases h
            have := ihi3 n (by rw [hri])
            simp [specUnboundOccurs, this]
      | ok pr =>
          obtain ⟨i1, st1⟩ := pr
          have htab1 := ihi1 i1 st1 hri
          have hhasi : specHasUnbound (tableKeys st.symbolTable) initE = false :=
            ihi2.mp (by rw [hri]; rfl)
          obtain ⟨ihb1, ihb2, ihb3⟩ := ihb (bodyState x st1)
          rw [tableKeys_bodyState, htab1] at ihb2 ihb3
          have hstep : run_on_expr st (.letE x initE body)
              = (match run_on_expr (bodyState x st1) body with
                 | .error e => .error e
                 | .ok (body1, st4) =>
                     .ok (.letE st1.nameGen.generate.1 i1 body1,
                          { st4 with symbolTable := st4.symbolTable.tail })) := by
            rw [run_on_expr, hri]
          cases hrb : run_on_expr (bodyState x st1) body with
          | error err =>
              have hstep2 : run_on_expr st (.letE x initE body) = .error err := by
                rw [hstep, hrb]
              have hhas : specHasUnbound (x :: tableKeys st.symbolTable) body = true :=
                boolIffNeg _ _ ihb2 (by rw [hrb]; rfl)
              refine ⟨?_, ?_, ?_⟩
              · intro e2 st2 h
                rw [hstep2] at h
                cases h
              · rw [hstep2]
                simp [exceptOk, specHasUnbound, hhas]
              · intro n h
                rw [hstep2] at h
                cases h
                have := ihb3 n (by rw [hrb])
                simp [specUnboundOccurs, this]
          | ok pr2 =>
              obtain ⟨b1, st4⟩ := pr2
              have hstep2 : run_on_expr st (.letE x initE body)
                  = .ok (.letE st1.nameGen.generate.1 i1 b1,
                         { st4 with symbolTable := st4.symbolTable.tail }) := by
                rw [hstep, hrb]
              have htab4 := ihb1 b1 st4 hrb
              have hhasb : specHasUnbound (x :: tableKeys st.symbolTable) body = false :=
                ihb2.mp (by rw [hrb]; rfl)
              refine ⟨?_, ?_, ?_⟩
              · intro e2 st2 h
                rw [hstep2] at h
                cases h
                show st4.symbolTable.tail = st.symbolTable
                rw [htab4]
                show st1.symbolTable = st.symbolTable
                exact htab1
              · rw [hstep2]
                simp [exceptOk, specHasUnbound, hhasi, hhasb]
              · intro n h
                rw [hstep2] at h
                cases h

/-- Claim C9: confirmed.  `uniquify_expr` fails exactly when the input
contains an identifier occurrence with no enclosing `Let` binding (a
`Let`'s initializer being resolved in the scope before its own binding is
introduced); the reported name is such an unbound identifier; and every
error is of the `UnknownIdentifier` form. -/
theorem uniquify_error_characterization (e : LExpr) :
    (exceptOk (uniquify_expr e) = true ↔ specHasUnbound [] e = false)
    ∧ (∀ n, uniquify_expr e = .error (.unknownIdentifier n) →
        specUnboundOccurs [] n e = true)
    ∧ (∀ err, uniquify_expr e = .error err →
        ∃ n, err = PassError.unknownIdentifier n ∧ specUnboundOccurs [] n e = true) := by
  obtain ⟨h1, h2, h3⟩ :=
    run_on_expr_spec e { nameGen := { pref := "x", index := 0 }, symbolTable := [] }
  have hkeys : tableKeys
      ({ nameGen := { pref := "x", index := 0 }, symbolTable := [] } :
        UniquifyState).symbolTable = [] := rfl
  rw [hkeys] at h2 h3
  refine ⟨?_, ?_, ?_⟩
  · rw [uniquify_expr]
    cases hr : run_on_expr { nameGen := { pref := "x", index := 0 }, symbolTable := [] } e with
    | error err =>
        rw [hr] at h2
        simpa [exceptOk] using h2
    | ok pr =>
        rw [hr] at h2
        simpa [exceptOk] using h2
  · intro n h
    rw [uniquify_expr] at h
    cases hr : run_on_expr { nameGen := { pref := "x", index := 0 }, symbolTable := [] } e with
    | error err =>
        rw [hr] at h
        cases h
        exact h3 n hr
    | ok pr =>
        rw [hr] at h
        cases h
  · intro err h
    rw [uniquify_expr] at h
    cases hr : run_on_expr { nameGen := { pref := "x", index := 0 }, symbolTable := [] } e with
    | error err2 =>
        rw [hr] at h
        cases h
        cases err with
        | unknownIdentifier n => exact ⟨n, rfl, h3 n hr⟩
    | ok pr =>
        rw [hr] at h
        cases h

/-- Witness for `uniquify_error_characterization`: the bare identifier `y`
is rejected with its own name reported, and `let ([a 1]) a` is accepted. -/
theorem uniquify_error_characterization_witness :
    uniquify_expr (.ident "y") = .error (.unknownIdentifier "y")
    ∧ specUnboundOccurs [] "y" (.ident "y") = true
    ∧ exceptOk (uniquify_expr (.letE "a" (.integer 1) (.ident "a"))) = true :=
  ⟨rfl,
   (uniquify_error_characterization (.ident "y")).2.1 "y" rfl,
   (uniquify_error_characterization (.letE "a" (.integer 1) (.ident "a"))).1.mpr
     (by decide)⟩

end EoC
